import Mathlib

/-!
# Form builder: the field-list state machine

Shallow embedding of `src/src/Components/FormBuilder.jsx`.

The component owns two pieces of React state, `formFields` (a JavaScript
array) and `editingField` (an object or `null`).  Every handler of the
component is embedded as a pure function on a `State` record holding both.
The two reads of the outside world become explicit arguments:

* `window.confirm(..)` is the boolean argument `confirm`;
* `Date.now()` is the argument `now`, a count of milliseconds.

A JavaScript array is embedded as a list of `Slot`s, so that the arrays the
handlers can really build (with `undefined` entries and with holes) are
values of the model and every handler is a total function.
-/

namespace FormBuilder

/-! ## Data model -/

/-- Field record as built by `addField` (lines 9-15).  The last component is
the extra `index` property that a record carries once it went through
`setEditingField({ ...field, index })` (line 85): the very same object is what
`updateField` stores into the array, so list elements may carry it too. -/
structure Field where
  id : String
  type : String
  label : String
  required : Bool
  values : List String
  index : Option Nat
deriving DecidableEq, Repr

/-- One position of a JavaScript array: an absent element (a hole of a sparse
array), the value `undefined`, or a field record. -/
inductive Slot where
  | hole
  | undef
  | val (f : Field)
deriving DecidableEq, Repr

/-- Component state: the two `useState` cells (lines 5-6). -/
structure State where
  formFields : List Slot
  editingField : Option Field
deriving DecidableEq, Repr

/-- Initial state: `useState([])` and `useState(null)`. -/
def initial : State := { formFields := [], editingField := none }

/-- Outcome of a drag gesture as handed to `onDragEnd`: `source.index` and the
`destination` (its `index`, or `null` when there is none). -/
structure DropResult where
  source : Nat
  destination : Option Nat
deriving DecidableEq, Repr

/-! ## JavaScript array primitives used by the handlers -/

/-- Value obtained when an array position is read: a hole reads as `undefined`. -/
def Slot.read : Slot → Slot
  | Slot.hole => Slot.undef
  | s => s

/-- Whether the position is an own property of the array (not a hole). -/
def Slot.present : Slot → Bool
  | Slot.hole => false
  | _ => true

/-- Array spread `[...a]` and `Array.from(a)`: both walk the array iterator,
which yields `undefined` at a hole, and build a dense array. -/
def spread (a : List Slot) : List Slot := a.map Slot.read

/-- Worker of `filter`: `i` is the array position of the head of the list.
The callback `p` receives the element and its position; holes are skipped
without calling it. -/
def filterFrom (p : Slot → Nat → Bool) : Nat → List Slot → List Slot
  | _, [] => []
  | i, s :: rest =>
    if s.present && p s i then s :: filterFrom p (i + 1) rest
    else filterFrom p (i + 1) rest

/-- Method `Array.prototype.filter` with a two-argument callback. -/
def filter (p : Slot → Nat → Bool) (a : List Slot) : List Slot := filterFrom p 0 a

/-- Method `Array.prototype.splice(start, deleteCount, ...items)` for
non-negative integer arguments: the removed elements and the array afterwards.
Both `start` and `deleteCount` are clamped to the array as the language
prescribes. -/
def splice (a : List Slot) (start deleteCount : Nat) (items : List Slot) :
    List Slot × List Slot :=
  let actualStart := min start a.length
  let actualDeleteCount := min deleteCount (a.length - actualStart)
  ((a.drop actualStart).take actualDeleteCount,
    a.take actualStart ++ items ++ a.drop (actualStart + actualDeleteCount))

/-- Array destructuring `const [x] = a`: the first element read, `undefined`
for an empty array. -/
def first : List Slot → Slot
  | [] => Slot.undef
  | s :: _ => s.read

/-- Indexed assignment `a[i] = v`: replaces position `i` when it exists,
otherwise grows the array to length `i + 1`, the positions in between being
holes. -/
def assign (a : List Slot) (i : Nat) (v : Slot) : List Slot :=
  if i < a.length then a.set i v
  else a ++ List.replicate (i - a.length) Slot.hole ++ [v]

/-! ## Handlers -/

/-- Record `newField` built by `addField` (lines 9-15); the template literals
are string concatenations, `id` being the decimal rendering of the clock. -/
def newField (type : String) (now : Nat) : Field :=
  { id := toString now
    type := type
    label := "New " ++ type
    required := false
    values :=
      if type = "select" ∨ type = "radio" ∨ type = "checkbox"
      then ["Option 1", "Option 2"] else []
    index := none }

/-- Handler `addField` (lines 8-17). -/
def addField (type : String) (now : Nat) (s : State) : State :=
  { s with formFields := spread s.formFields ++ [Slot.val (newField type now)] }

/-- Handler `deleteField` (lines 19-26). -/
def deleteField (confirm : Bool) (index : Nat) (s : State) : State :=
  if confirm then
    { formFields := filter (fun _ i => i != index) s.formFields
      editingField :=
        match s.editingField with
        | some e => if e.index = some index then none else some e
        | none => none }
  else s

/-- Handler `handleDragEnd` (lines 28-34). -/
def handleDragEnd (result : DropResult) (s : State) : State :=
  match result.destination with
  | none => s
  | some destination =>
    let reorderedFields := spread s.formFields
    let removed := splice reorderedFields result.source 1 []
    let movedItem := first removed.1
    let inserted := splice removed.2 destination 0 [movedItem]
    { s with formFields := inserted.2 }

/-- Handler `updateField` (lines 36-42).  A working copy always carries an
`index`; were it missing, `updatedFields[undefined] = ..` would set a named
property and leave every array position as the spread produced it. -/
def updateField (s : State) : State :=
  match s.editingField with
  | none => s
  | some e =>
    let updatedFields := spread s.formFields
    match e.index with
    | some i => { s with formFields := assign updatedFields i (Slot.val e) }
    | none => { s with formFields := updatedFields }

/-- Handler `handleReset` (lines 44-49). -/
def handleReset (confirm : Bool) (s : State) : State :=
  if confirm then { formFields := [], editingField := none } else s

/-- Click handler of line 85, `setEditingField({ ...field, index })`.  It is
attached by `formFields.map` to the positions that hold a field record; no
handler exists for any other position, so the state is then left as it is. -/
def openEdit (index : Nat) (s : State) : State :=
  match s.formFields[index]? with
  | some (Slot.val field) =>
    { s with editingField := some { field with index := some index } }
  | _ => s

/-- Change handler of line 127,
`setEditingField({ ...editingField, label: e.target.value })`.  The input is
rendered only while `editingField` is set. -/
def updateEditLabel (value : String) (s : State) : State :=
  match s.editingField with
  | some e => { s with editingField := some { e with label := value } }
  | none => s

/-! ## Event sequences -/

/-- User action on the component, with the outside reads it triggers. -/
inductive Event where
  | addField (type : String) (now : Nat)
  | deleteField (index : Nat) (confirm : Bool)
  | reorderField (source : Nat) (destination : Option Nat)
  | openEdit (index : Nat)
  | updateEditLabel (value : String)
  | commitEdit
  | resetAll (confirm : Bool)
deriving DecidableEq, Repr

/-- State after one event. -/
def step (s : State) : Event → State
  | Event.addField type now => addField type now s
  | Event.deleteField index confirm => deleteField confirm index s
  | Event.reorderField source destination => handleDragEnd ⟨source, destination⟩ s
  | Event.openEdit index => openEdit index s
  | Event.updateEditLabel value => updateEditLabel value s
  | Event.commitEdit => updateField s
  | Event.resetAll confirm => handleReset confirm s

/-- State after a sequence of events, oldest first. -/
def run (s : State) (events : List Event) : State := events.foldl step s

/-! ## Predicates on states -/

/-- Every record of the array and the working copy satisfy `P`. -/
def AllFields (P : Field → Prop) (s : State) : Prop :=
  (∀ f, Slot.val f ∈ s.formFields → P f) ∧ (∀ e, s.editingField = some e → P e)

/-- Ids of the field records held by an array, in array order. -/
def fieldIds (a : List Slot) : List String :=
  a.filterMap fun s =>
    match s with
    | Slot.val f => some f.id
    | _ => none

/-- Ids that the `addField` calls of a sequence read from the clock, in order. -/
def clockIds : List Event → List String
  | [] => []
  | Event.addField _ now :: rest => toString now :: clockIds rest
  | _ :: rest => clockIds rest

/-- Whether the working copy still sits where it was taken from: the array
position named by its `index` holds a record with the id of the copy. -/
def inSync (s : State) : Bool :=
  match s.editingField with
  | none => true
  | some e =>
    match e.index with
    | none => false
    | some i =>
      match s.formFields[i]? with
      | some (Slot.val f) => f.id == e.id
      | _ => false

/-- Whether every `commitEdit` of the sequence, run from `s`, happens in a
state that is `inSync`. -/
def commitsInSync (s : State) : List Event → Bool
  | [] => true
  | Event.commitEdit :: rest => inSync s && commitsInSync (updateField s) rest
  | ev :: rest => commitsInSync (step s ev) rest

/-- Whether the indices an event is called with are positions of the current
array. -/
def Event.validAt (s : State) : Event → Bool
  | Event.deleteField index _ => index < s.formFields.length
  | Event.reorderField source destination =>
    source < s.formFields.length &&
      match destination with
      | some d => d < s.formFields.length
      | none => true
  | Event.openEdit index => index < s.formFields.length
  | _ => true

/-- Whether every event of the sequence, run from `s`, is `validAt` the state
it is applied to. -/
def validRun (s : State) : List Event → Bool
  | [] => true
  | ev :: rest => ev.validAt s && validRun (step s ev) rest

/-! ## Sample data -/

/-- Three records as three calls of `addField` build them. -/
def sampleFields : List Field :=
  [newField "text" 1, newField "select" 2, newField "radio" 3]

/-- State with three records and the second one open for editing. -/
def sampleEditing : State := openEdit 1 ⟨sampleFields.map Slot.val, none⟩

/-- Two fields are added, the second is opened for editing, the first is
deleted: every index is a position of the array at the time of its call. -/
def staleTrace : List Event :=
  [Event.addField "text" 1, Event.addField "select" 2, Event.openEdit 1,
    Event.deleteField 0 true]

/-- Two fields are added, the first is opened for editing and then dragged
below the second, and the working copy is saved. -/
def draggedTrace : List Event :=
  [Event.addField "text" 1, Event.addField "select" 2, Event.openEdit 0,
    Event.reorderField 0 (some 1), Event.commitEdit]

/-- Two fields are added, the first is relabelled through the edit panel, the
fields are swapped by a drag and the field now on top is deleted. -/
def syncedTrace : List Event :=
  [Event.addField "text" 1, Event.addField "select" 2, Event.openEdit 0,
    Event.updateEditLabel "Name", Event.commitEdit, Event.reorderField 0 (some 1),
    Event.deleteField 0 true]
/-! ## Array primitives on dense lists of records -/

theorem spread_map_val (L : List Field) : spread (L.map Slot.val) = L.map Slot.val := by
  induction L with
  | nil => rfl
  | cons f L ih =>
    simp only [spread, List.map_cons, Slot.read, List.map_map] at ih ⊢
    rw [ih]

theorem filterFrom_map_val_all (p : Slot → Nat → Bool) (L : List Field) (k : Nat)
    (hp : ∀ s i, k ≤ i → p s i = true) :
    filterFrom p k (L.map Slot.val) = L.map Slot.val := by
  induction L generalizing k with
  | nil => rfl
  | cons f L ih =>
    simp only [List.map_cons, filterFrom, Slot.present, hp _ k (Nat.le_refl k), Bool.and_self,
      if_true]
    rw [ih (k + 1) (fun s i hi => hp s i (by omega))]

theorem filterFrom_map_val_ne (L : List Field) (k j : Nat) :
    filterFrom (fun _ i => i != k + j) k (L.map Slot.val) = (L.eraseIdx j).map Slot.val := by
  induction L generalizing k j with
  | nil => rfl
  | cons f L ih =>
    cases j with
    | zero =>
      have hall := filterFrom_map_val_all (fun _ i => i != k) L (k + 1)
        (fun _ i hi => by simp; omega)
      simp [filterFrom, Slot.present, hall]
    | succ j =>
      have hrec := ih (k + 1) j
      have hk : k + 1 + j = k + (j + 1) := by omega
      rw [hk] at hrec
      simp [filterFrom, Slot.present, hrec]

theorem filter_map_val_ne (L : List Field) (index : Nat) :
    filter (fun _ i => i != index) (L.map Slot.val) = (L.eraseIdx index).map Slot.val := by
  have h := filterFrom_map_val_ne L 0 index
  simpa [filter] using h


/-! ## Single operations -/

/-- C6: on a list `L` of field records, `addField t` yields `L` with one record
`f` appended at the end, the length growing by one, where `f` has type `t`,
label `"New " ++ t`, `required = false`, and the two default options exactly
when `t` is select, radio or checkbox (no options otherwise). -/
theorem addField_appends (L : List Field) (e : Option Field) (t : String) (now : Nat) :
    ∃ f : Field,
      addField t now ⟨L.map Slot.val, e⟩ = ⟨(L ++ [f]).map Slot.val, e⟩ ∧
      (L ++ [f]).length = L.length + 1 ∧
      (∀ j, j < L.length → (L ++ [f])[j]? = L[j]?) ∧
      f.type = t ∧ f.label = "New " ++ t ∧ f.required = false ∧
      f.values =
        if t = "select" ∨ t = "radio" ∨ t = "checkbox"
        then ["Option 1", "Option 2"] else [] := by
  refine ⟨newField t now, ?_, ?_, ?_, rfl, rfl, rfl, rfl⟩
  · simp only [addField, spread_map_val, List.map_append, List.map_cons, List.map_nil]
  · simp
  · intro j hj
    exact List.getElem?_append_left hj

/-- C7: on a list `L` of field records and a position `i` of it, a confirmed
`deleteField i` yields `L` without its element at `i`: one element fewer,
the positions below `i` as before, and the element formerly at `j > i` now at
`j - 1`. -/
theorem deleteField_removes (L : List Field) (e : Option Field) (i : Nat)
    (hi : i < L.length) :
    (deleteField true i ⟨L.map Slot.val, e⟩).formFields = (L.eraseIdx i).map Slot.val ∧
    (L.eraseIdx i).length = L.length - 1 ∧
    (∀ j, j < i → (L.eraseIdx i)[j]? = L[j]?) ∧
    (∀ j, i < j → j < L.length → (L.eraseIdx i)[j - 1]? = L[j]?) := by
  refine ⟨?_, ?_, ?_, ?_⟩
  · simp only [deleteField, if_true, filter_map_val_ne]
  · exact List.length_eraseIdx_of_lt hi
  · intro j hj
    rw [List.getElem?_eraseIdx]
    simp [hj]
  · intro j hij _
    rw [List.getElem?_eraseIdx]
    have h1 : ¬ (j - 1 < i) := by omega
    have h2 : j - 1 + 1 = j := by omega
    simp [h1, h2]

/-- C8: when the confirmation prompt answers `false`, `deleteField` and
`handleReset` both return the state they were given. -/
theorem declined_confirmation_no_change (s : State) (index : Nat) :
    deleteField false index s = s ∧ handleReset false s = s := by
  constructor <;> rfl

/-- C9: a confirmed `deleteField i` clears the edit selection when one is open
and its stored index is `i`; in every other case the selection is left as it
was. -/
theorem deleteField_selection (s : State) (i : Nat) :
    (∀ e, s.editingField = some e → e.index = some i →
      (deleteField true i s).editingField = none) ∧
    ((¬ ∃ e, s.editingField = some e ∧ e.index = some i) →
      (deleteField true i s).editingField = s.editingField) := by
  constructor
  · intro e he hidx
    simp [deleteField, he, hidx]
  · intro hno
    cases hsel : s.editingField with
    | none => simp [deleteField, hsel]
    | some e =>
      have hne : ¬ e.index = some i := fun h => hno ⟨e, hsel, h⟩
      simp [deleteField, hsel, hne]

/-- C10: from any state, a confirmed `handleReset` yields the empty field list
with no edit selection. -/
theorem reset_confirmed_clears (s : State) :
    handleReset true s = { formFields := [], editingField := none } := by
  rfl


theorem splice_map_val_remove (L : List Field) (a : Nat) (ha : a < L.length) :
    splice (L.map Slot.val) a 1 [] =
      ([Slot.val L[a]], (L.eraseIdx a).map Slot.val) := by
  have h1 : min a L.length = a := by omega
  have h2 : min 1 (L.length - a) = 1 := by omega
  simp only [splice, List.length_map, h1, h2, List.append_nil]
  refine Prod.ext ?_ ?_
  · show List.take 1 (List.drop a (List.map Slot.val L)) = [Slot.val L[a]]
    rw [← List.map_drop, List.drop_eq_getElem_cons ha]
    rfl
  · show List.take a (List.map Slot.val L) ++ List.drop (a + 1) (List.map Slot.val L) = _
    simp only [← List.map_drop, ← List.map_take, ← List.map_append]
    rw [List.eraseIdx_eq_take_drop_succ]

theorem splice_map_val_insert (E : List Field) (b : Nat) (f : Field) (hb : b ≤ E.length) :
    (splice (E.map Slot.val) b 0 [Slot.val f]).2 =
      (E.take b ++ f :: E.drop b).map Slot.val := by
  have h1 : min b E.length = b := by omega
  simp [splice, h1]

/-- C1: on a list `L` of field records, with source `a` and destination `b`
both positions of `L`, `handleDragEnd` yields a list `R` of the same length
that is a permutation of `L` (so the ids form the same multiset), has the
former element `a` at position `b`, and is `L` without position `a` once
position `b` is removed from it: a move, not a swap. -/
theorem handleDragEnd_moves (L : List Field) (e : Option Field) (a b : Nat)
    (ha : a < L.length) (hb : b < L.length) :
    ∃ R : List Field,
      handleDragEnd ⟨a, some b⟩ ⟨L.map Slot.val, e⟩ = ⟨R.map Slot.val, e⟩ ∧
      R.length = L.length ∧
      R.Perm L ∧
      (R.map Field.id).Perm (L.map Field.id) ∧
      R[b]? = some L[a] ∧
      R.eraseIdx b = L.eraseIdx a := by
  have hlen : (L.eraseIdx a).length = L.length - 1 := List.length_eraseIdx_of_lt ha
  have hbE : b ≤ (L.eraseIdx a).length := by omega
  have hperm : (List.take b (L.eraseIdx a) ++ L[a] :: List.drop b (L.eraseIdx a)).Perm L := by
    refine List.perm_middle.trans ?_
    rw [List.take_append_drop]
    have hL : L = L.take a ++ L[a] :: L.drop (a + 1) := by
      rw [← List.drop_eq_getElem_cons ha, List.take_append_drop]
    conv_rhs => rw [hL]
    rw [List.eraseIdx_eq_take_drop_succ]
    exact List.perm_middle.symm
  refine ⟨(L.eraseIdx a).take b ++ L[a] :: (L.eraseIdx a).drop b, ?_, ?_, hperm, hperm.map _, ?_, ?_⟩
  · simp only [handleDragEnd, spread_map_val, splice_map_val_remove L a ha, first, Slot.read,
      splice_map_val_insert _ b _ hbE]
  · simpa using hperm.length_eq
  · rw [List.getElem?_append_right (by simp [hbE])]
    simp [hbE]
  · rw [List.eraseIdx_append_of_length_le (by simp [hbE])]
    simp [hbE]


theorem assign_map_val (L : List Field) (i : Nat) (f : Field) (hi : i < L.length) :
    assign (L.map Slot.val) i (Slot.val f) = (L.set i f).map Slot.val := by
  simp [assign, hi, List.map_set]

/-- C2: on a list `L` of field records and a position `i` of it, `openEdit i`,
then `updateEditLabel S`, then `updateField` yield a list `R` of the same
length whose element at `i` has label `S` and the id, type, required flag and
values of `L[i]`, every other position being as in `L`. -/
theorem edit_label_commit (L : List Field) (e : Option Field) (i : Nat)
    (hi : i < L.length) (S : String) :
    ∃ R : List Field, ∃ f : Field,
      (updateField (updateEditLabel S (openEdit i ⟨L.map Slot.val, e⟩))).formFields
        = R.map Slot.val ∧
      R.length = L.length ∧
      R[i]? = some f ∧
      f.label = S ∧ f.id = L[i].id ∧ f.type = L[i].type ∧
      f.required = L[i].required ∧ f.values = L[i].values ∧
      ∀ j, j ≠ i → R[j]? = L[j]? := by
  have hget : (L.map Slot.val)[i]? = some (Slot.val L[i]) := by
    simp [List.getElem?_eq_getElem hi]
  refine ⟨L.set i { L[i] with label := S, index := some i },
    { L[i] with label := S, index := some i }, ?_, ?_, ?_, rfl, rfl, rfl, rfl, rfl, ?_⟩
  · simp only [openEdit, hget, updateEditLabel, updateField, spread_map_val]
    exact assign_map_val L i _ hi
  · simp
  · simp [hi]
  · intro j hj
    simp [List.getElem?_set, Ne.symm hj]


/-- C1, instance: the first of three records is dragged to the last position. -/
theorem handleDragEnd_moves_witness :
    0 < sampleFields.length ∧ 2 < sampleFields.length ∧
    ∃ R : List Field,
      handleDragEnd ⟨0, some 2⟩ ⟨sampleFields.map Slot.val, none⟩ = ⟨R.map Slot.val, none⟩ ∧
      R.length = sampleFields.length ∧
      R.Perm sampleFields ∧
      (R.map Field.id).Perm (sampleFields.map Field.id) ∧
      R[2]? = some (newField "text" 1) ∧
      R.eraseIdx 2 = sampleFields.eraseIdx 0 :=
  ⟨by decide, by decide, handleDragEnd_moves sampleFields none 0 2 (by decide) (by decide)⟩

/-- C2, instance: the second of three records is relabelled. -/
theorem edit_label_commit_witness :
    1 < sampleFields.length ∧
    ∃ R : List Field, ∃ f : Field,
      (updateField (updateEditLabel "Country"
        (openEdit 1 ⟨sampleFields.map Slot.val, none⟩))).formFields = R.map Slot.val ∧
      R.length = sampleFields.length ∧
      R[1]? = some f ∧
      f.label = "Country" ∧ f.id = (newField "select" 2).id ∧
      f.type = (newField "select" 2).type ∧
      f.required = (newField "select" 2).required ∧
      f.values = (newField "select" 2).values ∧
      ∀ j, j ≠ 1 → R[j]? = sampleFields[j]? :=
  ⟨by decide, edit_label_commit sampleFields none 1 (by decide) "Country"⟩

/-- C7, instance: the first of three records is deleted. -/
theorem deleteField_removes_witness :
    0 < sampleFields.length ∧
    (deleteField true 0 ⟨sampleFields.map Slot.val, none⟩).formFields
      = (sampleFields.eraseIdx 0).map Slot.val ∧
    (sampleFields.eraseIdx 0).length = sampleFields.length - 1 ∧
    (∀ j, j < 0 → (sampleFields.eraseIdx 0)[j]? = sampleFields[j]?) ∧
    (∀ j, 0 < j → j < sampleFields.length →
      (sampleFields.eraseIdx 0)[j - 1]? = sampleFields[j]?) :=
  ⟨by decide, deleteField_removes sampleFields none 0 (by decide)⟩

/-- C9, instance: with the second record open for editing, deleting it clears the
selection and deleting the first record leaves the selection as it was. -/
theorem deleteField_selection_witness :
    (deleteField true 1 sampleEditing).editingField = none ∧
    (deleteField true 0 sampleEditing).editingField = sampleEditing.editingField :=
  ⟨(deleteField_selection sampleEditing 1).1 { newField "select" 2 with index := some 1 } rfl rfl,
   (deleteField_selection sampleEditing 0).2 (by
      rintro ⟨e, he, hidx⟩
      have h : e = { newField "select" 2 with index := some 1 } :=
        (Option.some.inj (he.symm.trans (rfl : sampleEditing.editingField = some _))).symm ▸ rfl
      rw [h] at hidx
      exact absurd hidx (by decide))⟩

/-! ## Where the records of an array come from -/

theorem mem_spread {f : Field} {a : List Slot} (h : Slot.val f ∈ spread a) :
    Slot.val f ∈ a := by
  simp only [spread, List.mem_map] at h
  obtain ⟨s, hs, hrd⟩ := h
  cases s with
  | hole => simp [Slot.read] at hrd
  | undef => simp [Slot.read] at hrd
  | val g =>
    simp only [Slot.read] at hrd
    rw [← hrd]
    exact hs

theorem filterFrom_sublist (p : Slot → Nat → Bool) (k : Nat) (a : List Slot) :
    (filterFrom p k a).Sublist a := by
  induction a generalizing k with
  | nil => exact List.Sublist.refl _
  | cons s rest ih =>
    simp only [filterFrom]
    split
    · exact (ih (k + 1)).cons₂ s
    · exact (ih (k + 1)).cons s

theorem mem_splice_removed {x : Slot} {a : List Slot} {start dc : Nat} {items : List Slot}
    (h : x ∈ (splice a start dc items).1) : x ∈ a :=
  List.mem_of_mem_drop (List.mem_of_mem_take h)

theorem mem_splice_result {x : Slot} {a : List Slot} {start dc : Nat} {items : List Slot}
    (h : x ∈ (splice a start dc items).2) : x ∈ a ∨ x ∈ items := by
  simp only [splice, List.mem_append] at h
  rcases h with (h | h) | h
  · exact Or.inl (List.mem_of_mem_take h)
  · exact Or.inr h
  · exact Or.inl (List.mem_of_mem_drop h)

theorem mem_of_first_eq {f : Field} {l : List Slot} (h : first l = Slot.val f) :
    Slot.val f ∈ l := by
  cases l with
  | nil => simp [first] at h
  | cons s rest =>
    cases s with
    | hole => simp [first, Slot.read] at h
    | undef => simp [first, Slot.read] at h
    | val g =>
      simp only [first, Slot.read] at h
      rw [← h]
      exact List.mem_cons_self _ _

theorem mem_assign {f : Field} {a : List Slot} {i : Nat} {v : Slot}
    (h : Slot.val f ∈ assign a i v) : Slot.val f ∈ a ∨ Slot.val f = v := by
  unfold assign at h
  split at h
  · exact List.mem_or_eq_of_mem_set h
  · simp only [List.mem_append, List.mem_replicate, List.mem_singleton] at h
    rcases h with (h | h) | h
    · exact Or.inl h
    · exact absurd h.2 (by simp)
    · exact Or.inr h

/-! ## Invariants of event sequences -/

theorem allFields_step (P : Field → Prop)
    (hnew : ∀ t now, P (newField t now))
    (hidx : ∀ f i, P f → P { f with index := some i })
    (hlabel : ∀ f v, P f → P { f with label := v })
    (s : State) (ev : Event) (h : AllFields P s) : AllFields P (step s ev) := by
  obtain ⟨hl, he⟩ := h
  cases ev with
  | addField t now =>
    refine ⟨?_, he⟩
    intro f hf
    simp only [step, addField, List.mem_append, List.mem_singleton] at hf
    rcases hf with hf | hf
    · exact hl f (mem_spread hf)
    · rw [Slot.val.inj hf]
      exact hnew t now
  | deleteField index confirm =>
    cases confirm with
    | false => exact ⟨hl, he⟩
    | true =>
      refine ⟨?_, ?_⟩
      · intro f hf
        exact hl f ((filterFrom_sublist _ _ _).subset hf)
      · intro e hsel
        simp only [step, deleteField, if_true] at hsel
        cases hcur : s.editingField with
        | none => simp [hcur] at hsel
        | some e0 =>
          simp only [hcur] at hsel
          split at hsel
          · simp at hsel
          · rw [← Option.some.inj hsel]
            exact he e0 hcur
  | reorderField source destination =>
    cases destination with
    | none => exact ⟨hl, he⟩
    | some d =>
      refine ⟨?_, he⟩
      intro f hf
      simp only [step, handleDragEnd] at hf
      rcases mem_splice_result hf with h1 | h1
      · rcases mem_splice_result h1 with h2 | h2
        · exact hl f (mem_spread h2)
        · simp at h2
      · simp only [List.mem_singleton] at h1
        exact hl f (mem_spread (mem_splice_removed (mem_of_first_eq h1.symm)))
  | openEdit index =>
    simp only [step, openEdit]
    split
    · next field hget =>
      refine ⟨hl, ?_⟩
      intro e hsel
      simp only [Option.some.injEq] at hsel
      rw [← hsel]
      exact hidx field index (hl field (List.getElem?_mem hget))
    · exact ⟨hl, he⟩
  | updateEditLabel value =>
    simp only [step, updateEditLabel]
    split
    · next e0 hcur =>
      refine ⟨hl, ?_⟩
      intro e hsel
      simp only [Option.some.injEq] at hsel
      rw [← hsel]
      exact hlabel e0 value (he e0 hcur)
    · exact ⟨hl, he⟩
  | commitEdit =>
    simp only [step, updateField]
    split
    · exact ⟨hl, he⟩
    · next e0 hcur =>
      split
      · refine ⟨?_, ?_⟩
        · intro f hf
          rcases mem_assign hf with h1 | h1
          · exact hl f (mem_spread h1)
          · rw [Slot.val.inj h1]
            exact he e0 hcur
        · intro e hsel
          exact he e hsel
      · refine ⟨?_, ?_⟩
        · intro f hf
          exact hl f (mem_spread hf)
        · intro e hsel
          exact he e hsel
  | resetAll confirm =>
    cases confirm with
    | false => exact ⟨hl, he⟩
    | true =>
      refine ⟨?_, ?_⟩
      · intro f hf
        simp [step, handleReset] at hf
      · intro e hsel
        simp [step, handleReset] at hsel

theorem allFields_run (P : Field → Prop)
    (hnew : ∀ t now, P (newField t now))
    (hidx : ∀ f i, P f → P { f with index := some i })
    (hlabel : ∀ f v, P f → P { f with label := v })
    (events : List Event) (s : State) (h : AllFields P s) : AllFields P (run s events) := by
  induction events generalizing s with
  | nil => exact h
  | cons ev rest ih =>
    exact ih (step s ev) (allFields_step P hnew hidx hlabel s ev h)

/-- C5: in every state reached from the initial state by any sequence of
events, every record of the field list has a non-empty `values` exactly when
its type is select, radio or checkbox. -/
theorem values_match_type_reachable (events : List Event) (f : Field)
    (hf : Slot.val f ∈ (run initial events).formFields) :
    f.values ≠ [] ↔ (f.type = "select" ∨ f.type = "radio" ∨ f.type = "checkbox") := by
  have hinv := allFields_run
    (fun g => g.values ≠ [] ↔ (g.type = "select" ∨ g.type = "radio" ∨ g.type = "checkbox"))
    (by
      intro t now
      simp only [newField]
      split <;> simp_all)
    (fun _ _ h => h) (fun _ _ h => h) events initial
    ⟨by intro g hg; simp [initial] at hg, by intro e hsel; simp [initial] at hsel⟩
  exact hinv.1 f hf

/-- C5, instance: the select field of a one-event sequence. -/
theorem values_match_type_reachable_witness :
    Slot.val (newField "select" 7) ∈ (run initial [Event.addField "select" 7]).formFields ∧
    ((newField "select" 7).values ≠ [] ↔
      ((newField "select" 7).type = "select" ∨ (newField "select" 7).type = "radio" ∨
        (newField "select" 7).type = "checkbox")) :=
  ⟨by decide,
    values_match_type_reachable [Event.addField "select" 7] (newField "select" 7) (by decide)⟩

/-- C3: after `staleTrace`, whose indices are all valid when used, the list has
one element while the open selection still stores index 1, and `updateField`
then writes at position 1, past the end of the list, which grows to two
elements holding the same record twice. -/
theorem selection_index_stale_after_delete :
    validRun initial staleTrace = true ∧
    (run initial staleTrace).formFields = [Slot.val (newField "select" 2)] ∧
    (run initial staleTrace).editingField =
      some { newField "select" 2 with index := some 1 } ∧
    (updateField (run initial staleTrace)).formFields =
      [Slot.val (newField "select" 2),
        Slot.val { newField "select" 2 with index := some 1 }] := by
  decide

/-! ## Ids held by the array -/

theorem fieldIds_append (a b : List Slot) : fieldIds (a ++ b) = fieldIds a ++ fieldIds b := by
  simp [fieldIds, List.filterMap_append]

theorem fieldIds_spread (a : List Slot) : fieldIds (spread a) = fieldIds a := by
  induction a with
  | nil => rfl
  | cons s rest ih =>
    simp only [spread, fieldIds, List.map_cons] at ih ⊢
    cases s <;> simp [Slot.read, List.filterMap_cons, ih]

theorem fieldIds_first (l : List Slot) (h : l.length ≤ 1) : fieldIds [first l] = fieldIds l := by
  cases l with
  | nil => rfl
  | cons s rest =>
    cases rest with
    | nil => cases s <;> rfl
    | cons t rest => simp at h

theorem splice_parts (a : List Slot) (start dc : Nat) :
    a.take (min start a.length) ++
      ((a.drop (min start a.length)).take (min dc (a.length - min start a.length)) ++
        a.drop (min start a.length + min dc (a.length - min start a.length))) = a := by
  rw [← List.drop_drop, List.take_append_drop, List.take_append_drop]

theorem fieldIds_splice (a : List Slot) (start dc : Nat) (items : List Slot) :
    (fieldIds (splice a start dc items).2 ++ fieldIds (splice a start dc items).1).Perm
      (fieldIds a ++ fieldIds items) := by
  have hparts := congrArg fieldIds (splice_parts a start dc)
  simp only [fieldIds_append] at hparts
  simp only [splice, fieldIds_append]
  rw [← hparts]
  rw [← Multiset.coe_eq_coe]
  simp only [← Multiset.coe_add]
  abel

theorem fieldIds_handleDragEnd (result : DropResult) (s : State) :
    (fieldIds (handleDragEnd result s).formFields).Perm (fieldIds s.formFields) := by
  obtain ⟨source, destination⟩ := result
  cases destination with
  | none => exact List.Perm.refl _
  | some d =>
    simp only [handleDragEnd]
    have hrem := fieldIds_splice (spread s.formFields) source 1 []
    have hins := fieldIds_splice (splice (spread s.formFields) source 1 []).2 d 0
      [first (splice (spread s.formFields) source 1 []).1]
    have hlen : (splice (spread s.formFields) source 1 []).1.length ≤ 1 := by
      simp only [splice, List.length_take]
      omega
    have hnone : (splice (splice (spread s.formFields) source 1 []).2 d 0
        [first (splice (spread s.formFields) source 1 []).1]).1 = [] := by
      simp [splice]
    rw [hnone, fieldIds_first _ hlen] at hins
    simp only [fieldIds, List.filterMap_nil, List.append_nil] at hins hrem
    simp only [fieldIds]
    have hsp := fieldIds_spread s.formFields
    simp only [fieldIds] at hsp
    rw [← hsp]
    exact hins.trans hrem

theorem fieldIds_set_same (a : List Slot) (i : Nat) (f e : Field)
    (hget : a[i]? = some (Slot.val f)) (hid : f.id = e.id) :
    fieldIds (a.set i (Slot.val e)) = fieldIds a := by
  induction a generalizing i with
  | nil => simp at hget
  | cons s rest ih =>
    cases i with
    | zero =>
      simp only [List.getElem?_cons_zero, Option.some.injEq] at hget
      simp [fieldIds, List.filterMap_cons, hget, hid]
    | succ i =>
      simp only [List.getElem?_cons_succ] at hget
      have h := ih i hget
      simp only [fieldIds] at h
      simp only [List.set_cons_succ, fieldIds, List.filterMap_cons]
      rw [h]

theorem fieldIds_updateField_inSync (s : State) (h : inSync s = true) :
    fieldIds (updateField s).formFields = fieldIds s.formFields := by
  unfold inSync at h
  unfold updateField
  cases hsel : s.editingField with
  | none => rfl
  | some e =>
    simp only [hsel] at h ⊢
    cases hidx : e.index with
    | none => simp [hidx] at h
    | some i =>
      simp only [hidx] at h ⊢
      cases hget : s.formFields[i]? with
      | none => simp [hget] at h
      | some slot =>
        cases slot with
        | hole => simp [hget] at h
        | undef => simp [hget] at h
        | val f =>
          simp only [hget, beq_iff_eq] at h
          have hlt : i < (spread s.formFields).length := by
            have := (List.getElem?_eq_some_iff.mp hget).1
            simpa [spread] using this
          have hget2 : (spread s.formFields)[i]? = some (Slot.val f) := by
            simp [spread, hget, Slot.read]
          simp only [assign, hlt, if_true]
          rw [fieldIds_set_same _ i f e hget2 h, fieldIds_spread]

theorem nodup_fresh_of_subperm {ids ids' clock : List String}
    (hsub : ids'.Subperm ids) (hs : ids.Nodup) (hfresh : ∀ x ∈ ids, x ∉ clock) :
    ids'.Nodup ∧ ∀ x ∈ ids', x ∉ clock := by
  obtain ⟨l, hperm, hsubl⟩ := hsub
  exact ⟨hperm.nodup_iff.mp (hs.sublist hsubl),
    fun x hx => hfresh x (hsubl.subset (hperm.symm.subset hx))⟩

theorem nodup_fieldIds_run (events : List Event) (s : State)
    (hs : (fieldIds s.formFields).Nodup)
    (hfresh : ∀ x ∈ fieldIds s.formFields, x ∉ clockIds events)
    (hclock : (clockIds events).Nodup)
    (hsync : commitsInSync s events = true) :
    (fieldIds (run s events).formFields).Nodup := by
  induction events generalizing s with
  | nil => exact hs
  | cons ev rest ih =>
    simp only [run, List.foldl_cons]
    cases ev with
    | addField t now =>
      simp only [clockIds, List.nodup_cons, List.mem_cons, not_or] at hfresh hclock
      simp only [commitsInSync] at hsync
      refine ih (step s (Event.addField t now)) ?_ ?_ hclock.2 hsync
      · simp only [step, addField, fieldIds_append, fieldIds_spread]
        refine List.Nodup.append hs (by simp [fieldIds]) ?_
        intro x hx hx2
        simp only [fieldIds, newField, List.filterMap_cons, List.filterMap_nil,
          List.mem_singleton] at hx2
        exact (hfresh x hx).1 hx2
      · intro x hx
        simp only [step, addField, fieldIds_append, fieldIds_spread, List.mem_append] at hx
        rcases hx with hx | hx
        · exact (hfresh x hx).2
        · simp only [fieldIds, newField, List.filterMap_cons, List.filterMap_nil,
            List.mem_singleton] at hx
          rw [hx]
          exact hclock.1
    | deleteField index confirm =>
      simp only [clockIds] at hfresh hclock
      simp only [commitsInSync] at hsync
      have hsub : (fieldIds (step s (Event.deleteField index confirm)).formFields).Subperm
          (fieldIds s.formFields) := by
        cases confirm with
        | false => exact List.Subperm.refl _
        | true => exact ((filterFrom_sublist _ _ _).filterMap _).subperm
      obtain ⟨h1, h2⟩ := nodup_fresh_of_subperm hsub hs hfresh
      exact ih _ h1 h2 hclock hsync
    | reorderField source destination =>
      simp only [clockIds] at hfresh hclock
      simp only [commitsInSync] at hsync
      obtain ⟨h1, h2⟩ := nodup_fresh_of_subperm
        (fieldIds_handleDragEnd ⟨source, destination⟩ s).subperm hs hfresh
      exact ih _ h1 h2 hclock hsync
    | openEdit index =>
      simp only [clockIds] at hfresh hclock
      simp only [commitsInSync] at hsync
      have heq : (step s (Event.openEdit index)).formFields = s.formFields := by
        simp only [step, openEdit]
        split <;> rfl
      refine ih _ (by rw [heq]; exact hs) (by rw [heq]; exact hfresh) hclock hsync
    | updateEditLabel value =>
      simp only [clockIds] at hfresh hclock
      simp only [commitsInSync] at hsync
      have heq : (step s (Event.updateEditLabel value)).formFields = s.formFields := by
        simp only [step, updateEditLabel]
        split <;> rfl
      refine ih _ (by rw [heq]; exact hs) (by rw [heq]; exact hfresh) hclock hsync
    | commitEdit =>
      simp only [clockIds] at hfresh hclock
      simp only [commitsInSync, Bool.and_eq_true] at hsync
      have heq := fieldIds_updateField_inSync s hsync.1
      refine ih _ (by simpa only [step, heq] using hs) (by simpa only [step, heq] using hfresh)
        hclock hsync.2
    | resetAll confirm =>
      simp only [clockIds] at hfresh hclock
      simp only [commitsInSync] at hsync
      have hsub : (fieldIds (step s (Event.resetAll confirm)).formFields).Subperm
          (fieldIds s.formFields) := by
        cases confirm with
        | false => exact List.Subperm.refl _
        | true => exact (List.nil_sublist _).subperm
      obtain ⟨h1, h2⟩ := nodup_fresh_of_subperm hsub hs hfresh
      exact ih _ h1 h2 hclock hsync

/-- C4, as stated, fails twice over.  Two `addField` calls that read the same
clock value produce two records with the same id; and with distinct clock
values, saving a working copy after its record was dragged elsewhere
(`draggedTrace`) overwrites another record and leaves the same id twice. -/
theorem fieldIds_not_always_distinct :
    ¬ (fieldIds (run initial
        [Event.addField "text" 5, Event.addField "text" 5]).formFields).Nodup ∧
    ((clockIds draggedTrace).Nodup ∧
      ¬ (fieldIds (run initial draggedTrace).formFields).Nodup) := by
  decide

/-- C4, amended: in every state reached from the initial state by a sequence
of events whose `addField` calls read pairwise distinct ids from the clock and
whose `commitEdit` events all happen while the position stored in the selection
holds the record with the id of the working copy, the ids of the records of
the field list are pairwise distinct. -/
theorem fieldIds_distinct_reachable (events : List Event)
    (hclock : (clockIds events).Nodup)
    (hsync : commitsInSync initial events = true) :
    (fieldIds (run initial events).formFields).Nodup :=
  nodup_fieldIds_run events initial (by simp [initial, fieldIds])
    (by intro x hx; simp [initial, fieldIds] at hx) hclock hsync

/-- C4, instance: `syncedTrace` adds, edits, saves, reorders and deletes. -/
theorem fieldIds_distinct_reachable_witness :
    (clockIds syncedTrace).Nodup ∧ commitsInSync initial syncedTrace = true ∧
    (fieldIds (run initial syncedTrace).formFields).Nodup :=
  ⟨by decide, by decide, fieldIds_distinct_reachable syncedTrace (by decide) (by decide)⟩

end FormBuilder
